import Mathlib

/-!
# Verification of the pyMON EVM bytecode generator

Shallow embedding of `src/pymon/transpiler_enhanced.py` (the enhanced
transpiler: byte emitter, expression/statement compiler, function
dispatcher, constructor/assembler) and `src/pymon/evm_compiler.py`
(`StorageLayout.allocate`), together with proofs about the embedded
definitions.

Machine bytes are modelled as `Nat` values (each `< 256` where produced by
the embedded code); byte regions are `List Nat`.  The external keccak-256
library (`Crypto.Hash.keccak`) is not part of this repository, so every
definition that hashes is parameterised by an abstract hash function
`K : List Nat → List Nat`.  Python's `int.to_bytes`, which raises
`OverflowError` when the value does not fit, is modelled with `Option`:
`none` is the fatal-exception outcome (no artifact produced).
-/

namespace PyMon

/-- Python `int.bit_length`, fuel-indexed so that it reduces structurally.
`bitLengthAux f n` computes the bit length of `n` provided `n ≤ f`. -/
def bitLengthAux : Nat → Nat → Nat
  | 0, _ => 0
  | f + 1, n => if n = 0 then 0 else bitLengthAux f (n / 2) + 1

/-- Python `int.bit_length`: number of binary digits, `0` for `0`. -/
def bit_length (n : Nat) : Nat := bitLengthAux n n

/-- Big-endian byte encoding of `v` in exactly `width` bytes
(the value is taken modulo `256 ^ width`, most significant byte first). -/
def natToBytesBE : Nat → Nat → List Nat
  | 0, _ => []
  | w + 1, v => natToBytesBE w (v / 256) ++ [v % 256]

/-- Decode a big-endian byte list as an unsigned integer
(Python `int.from_bytes(bs, 'big')`). -/
def bytesToNatBE (bs : List Nat) : Nat := bs.foldl (fun a b => a * 256 + b) 0

/-- Python `v.to_bytes(w, 'big')`: fails (raises `OverflowError`) when the
value does not fit in `w` bytes; never truncates. -/
def toBytes? (w v : Nat) : Option (List Nat) :=
  if v < 256 ^ w then some (natToBytesBE w v) else none

/-- The automatic operand width chosen by `emit_push` when no explicit size
is given: `max(1, (value.bit_length() + 7) // 8)`. -/
def pushWidth (v : Nat) : Nat := max 1 ((bit_length v + 7) / 8)

/-- `EnhancedBytecodeGenerator.emit_push` for an integer value: the emitted
byte sequence (push opcode followed by operand bytes), or `none` when the
explicit-width encoding overflows.  Mirrors the source exactly: the width
defaults to the minimal encoding, `value.to_bytes(size)` is taken at the
uncapped width, the width is then capped at 32, the opcode is
`PUSH1 + size - 1` and the operand is the trailing `size` bytes. -/
def emitPush? (value : Nat) (size? : Option Nat) : Option (List Nat) :=
  match size? with
  | none =>
      let size := pushWidth value
      let bs := natToBytesBE size value
      let size' := min size 32
      some ((0x5F + size') :: bs.drop (size - size'))
  | some size =>
      (toBytes? size value).map fun bs =>
        let size' := min size 32
        (0x5F + size') :: bs.drop (size - size')

/-- The byte sequence of an automatic-width push (the common case;
`emit_push` never fails there). -/
def pushMin (v : Nat) : List Nat :=
  (0x5F + min (pushWidth v) 32) ::
    (natToBytesBE (pushWidth v) v).drop (pushWidth v - min (pushWidth v) 32)

theorem emitPush?_none (v : Nat) : emitPush? v none = some (pushMin v) := rfl

/-! ## Basic facts about the byte encodings -/

theorem natToBytesBE_length (w v : Nat) : (natToBytesBE w v).length = w := by
  induction w generalizing v with
  | zero => rfl
  | succ w ih => simp [natToBytesBE, ih]

theorem bytesToNatBE_append_singleton (bs : List Nat) (b : Nat) :
    bytesToNatBE (bs ++ [b]) = bytesToNatBE bs * 256 + b := by
  simp [bytesToNatBE, List.foldl_append]

theorem bytesToNatBE_natToBytesBE (w v : Nat) :
    bytesToNatBE (natToBytesBE w v) = v % 256 ^ w := by
  induction w generalizing v with
  | zero => simp [natToBytesBE, bytesToNatBE, Nat.mod_one]
  | succ w ih =>
    rw [natToBytesBE, bytesToNatBE_append_singleton, ih]
    have h256 : (256 : Nat) ^ (w + 1) = 256 * 256 ^ w := by ring
    rw [h256, Nat.mod_mul]
    ring

theorem bitLengthAux_le_iff :
    ∀ f n k : Nat, n ≤ f → (bitLengthAux f n ≤ k ↔ n < 2 ^ k) := by
  intro f
  induction f with
  | zero =>
    intro n k hn
    have hn0 : n = 0 := Nat.le_zero.mp hn
    subst hn0
    simp only [bitLengthAux]
    exact iff_of_true (Nat.zero_le k) (Nat.two_pow_pos k)
  | succ f ih =>
    intro n k hn
    by_cases h0 : n = 0
    · subst h0
      simp only [bitLengthAux, if_pos rfl]
      exact iff_of_true (Nat.zero_le k) (Nat.two_pow_pos k)
    · have hrec : bitLengthAux (f + 1) n = bitLengthAux f (n / 2) + 1 := by
        simp [bitLengthAux, h0]
      have hdiv : n / 2 ≤ f := by omega
      rw [hrec]
      cases k with
      | zero =>
        simp only [pow_zero]
        omega
      | succ k =>
        have hiff := ih (n / 2) k hdiv
        have hpow : (2 : Nat) ^ (k + 1) = 2 ^ k * 2 := by ring
        constructor
        · intro h
          have : n / 2 < 2 ^ k := hiff.mp (by omega)
          rw [hpow]
          omega
        · intro h
          rw [hpow] at h
          have : n / 2 < 2 ^ k := by omega
          have := hiff.mpr this
          omega

theorem bit_length_le_iff (n k : Nat) : bit_length n ≤ k ↔ n < 2 ^ k :=
  bitLengthAux_le_iff n n k le_rfl

theorem lt_two_pow_bit_length (n : Nat) : n < 2 ^ bit_length n :=
  (bit_length_le_iff n (bit_length n)).mp le_rfl

theorem pow256_eq_pow2 (w : Nat) : (256 : Nat) ^ w = 2 ^ (8 * w) := by
  rw [show (256 : Nat) = 2 ^ 8 from rfl, ← pow_mul]

theorem one_le_pushWidth (v : Nat) : 1 ≤ pushWidth v := le_max_left 1 _

theorem lt_pow_pushWidth (v : Nat) : v < 256 ^ pushWidth v := by
  have hbl := lt_two_pow_bit_length v
  have hle : bit_length v ≤ 8 * pushWidth v := by
    unfold pushWidth
    omega
  calc v < 2 ^ bit_length v := hbl
    _ ≤ 2 ^ (8 * pushWidth v) := Nat.pow_le_pow_right (by norm_num) hle
    _ = 256 ^ pushWidth v := (pow256_eq_pow2 _).symm

theorem pushWidth_le (v w : Nat) (h1 : 1 ≤ w) (h2 : v < 256 ^ w) :
    pushWidth v ≤ w := by
  have : bit_length v ≤ 8 * w := by
    rw [bit_length_le_iff, ← pow256_eq_pow2 w] at *
    exact h2
  unfold pushWidth
  omega

theorem natToBytesBE_drop :
    ∀ w k v : Nat, k ≤ w →
      (natToBytesBE w v).drop (w - k) = natToBytesBE k v := by
  intro w
  induction w with
  | zero =>
    intro k v hk
    have : k = 0 := Nat.le_zero.mp hk
    subst this
    rfl
  | succ w ih =>
    intro k v hk
    cases k with
    | zero =>
      apply List.drop_eq_nil_of_le
      simp [natToBytesBE_length]
    | succ k =>
      have hk' : k ≤ w := by omega
      have hlen : (natToBytesBE w (v / 256)).length = w := natToBytesBE_length _ _
      have hd : w + 1 - (k + 1) = w - k := by omega
      rw [natToBytesBE, hd, List.drop_append_of_le_length (by omega), ih k _ hk']
      rfl

/-- **C4.** `emit_push` without an explicit width, on any value representable
in at most 32 bytes, emits the push opcode `PUSH1 + w - 1` for the minimal
big-endian width `w ∈ [1, 32]` followed by exactly `w` operand bytes, and
decoding those operand bytes as an unsigned big-endian integer gives back the
value; value `0` is emitted as `PUSH1 0x00`. -/
theorem push_minimal_roundtrip (v : Nat) (h : v < 256 ^ 32) :
    emitPush? v none =
        some ((0x60 + pushWidth v - 1) :: natToBytesBE (pushWidth v) v) ∧
      (natToBytesBE (pushWidth v) v).length = pushWidth v ∧
      1 ≤ pushWidth v ∧ pushWidth v ≤ 32 ∧
      bytesToNatBE (natToBytesBE (pushWidth v) v) = v ∧
      (∀ w, 1 ≤ w → v < 256 ^ w → pushWidth v ≤ w) ∧
      emitPush? 0 none = some [0x60, 0x00] := by
  have h32 : pushWidth v ≤ 32 := pushWidth_le v 32 (by norm_num) h
  have h1 : 1 ≤ pushWidth v := one_le_pushWidth v
  refine ⟨?_, natToBytesBE_length _ _, h1, h32, ?_, fun w hw1 hw2 => pushWidth_le v w hw1 hw2, rfl⟩
  · rw [emitPush?_none]
    unfold pushMin
    have hmin : min (pushWidth v) 32 = pushWidth v := Nat.min_eq_left h32
    rw [hmin]
    have he : 0x60 + pushWidth v - 1 = 0x5F + pushWidth v := by omega
    simp only [he, Nat.sub_self, List.drop_zero]
  · rw [bytesToNatBE_natToBytesBE]
    exact Nat.mod_eq_of_lt (lt_pow_pushWidth v)

theorem push_minimal_roundtrip_witness :
    emitPush? 300 none = some [0x61, 0x01, 0x2C] ∧ bytesToNatBE [0x01, 0x2C] = 300 := by
  have h := push_minimal_roundtrip 300 (by norm_num)
  refine ⟨?_, by decide⟩
  rw [h.1]
  decide

/-- **C10.** `emit_push` without an explicit width, on a value whose minimal
encoding exceeds 32 bytes, does not fail: it emits `PUSH32` (`0x7F`) followed
by exactly the low 32 bytes of the value, i.e. the value reduced modulo
`2^256`. -/
theorem push_oversized_truncates (v : Nat) (h : 256 ^ 32 ≤ v) :
    emitPush? v none = some (0x7F :: natToBytesBE 32 v) ∧
      (natToBytesBE 32 v).length = 32 ∧
      bytesToNatBE (natToBytesBE 32 v) = v % 256 ^ 32 ∧
      32 < pushWidth v := by
  have hbl : 256 < bit_length v := by
    by_contra hc
    have := (bit_length_le_iff v 256).mp (by omega)
    rw [← pow256_eq_pow2 32] at this
    omega
  have hpw : 32 < pushWidth v := by
    unfold pushWidth
    omega
  refine ⟨?_, natToBytesBE_length _ _, bytesToNatBE_natToBytesBE _ _, hpw⟩
  rw [emitPush?_none]
  unfold pushMin
  have hmin : min (pushWidth v) 32 = 32 := Nat.min_eq_right (by omega)
  rw [hmin, natToBytesBE_drop (pushWidth v) 32 v (by omega)]

theorem push_oversized_truncates_witness :
    emitPush? (2 ^ 256) none = some (0x7F :: List.replicate 32 0) := by
  have h := push_oversized_truncates (2 ^ 256) (by norm_num)
  rw [h.1]
  decide

/-! ## Storage layout (`evm_compiler.StorageLayout`) -/

/-- `StorageLayout` from `evm_compiler.py`: an insertion-ordered map from
variable names to slot numbers plus the next free slot.  The Python `dict`
is modelled as an association list in insertion order. -/
structure StorageLayout where
  slots : List (String × Nat)
  next_slot : Nat

/-- `StorageLayout.allocate`: a fresh name is appended with the next free
slot; a seen name returns its existing slot and leaves the layout
unchanged. -/
def StorageLayout.allocate (L : StorageLayout) (var_name : String) :
    Nat × StorageLayout :=
  match L.slots.lookup var_name with
  | some s => (s, L)
  | none =>
      (L.next_slot,
        ⟨L.slots ++ [(var_name, L.next_slot)], L.next_slot + 1⟩)

/-- Run a sequence of allocations. -/
def allocList (L : StorageLayout) : List String → StorageLayout
  | [] => L
  | n :: ns => allocList (L.allocate n).2 ns

def emptyLayout : StorageLayout := ⟨[], 0⟩

/-- The subsequence of first occurrences of names not yet in `seen`. -/
def firstSeen (seen : List String) : List String → List String
  | [] => []
  | n :: ns => if n ∈ seen then firstSeen seen ns else n :: firstSeen (n :: seen) ns

/-- Names paired with consecutive slot numbers starting at `k`. -/
def slotEnum (k : Nat) : List String → List (String × Nat)
  | [] => []
  | n :: ns => (n, k) :: slotEnum (k + 1) ns

theorem lookup_isSome_iff (l : List (String × Nat)) (a : String) :
    (l.lookup a).isSome ↔ a ∈ l.map Prod.fst := by
  induction l with
  | nil => simp [List.lookup]
  | cons p l ih =>
    obtain ⟨k, v⟩ := p
    by_cases h : a = k
    · subst h
      simp [List.lookup]
    · have hbeq : (a == k) = false := beq_false_of_ne h
      simp [List.lookup, hbeq, ih, h]

theorem lookup_append_left {l₁ l₂ : List (String × Nat)} {a : String} {k : Nat}
    (h : l₁.lookup a = some k) : (l₁ ++ l₂).lookup a = some k := by
  induction l₁ with
  | nil => simp [List.lookup] at h
  | cons p l ih =>
    obtain ⟨x, v⟩ := p
    cases hx : (a == x) with
    | true =>
      simp [List.lookup, hx] at h ⊢
      exact h
    | false =>
      simp [List.lookup, hx] at h ⊢
      exact ih h

theorem allocList_slots_extend :
    ∀ (ms : List String) (L : StorageLayout),
      ∃ t, (allocList L ms).slots = L.slots ++ t := by
  intro ms
  induction ms with
  | nil => exact fun L => ⟨[], by simp [allocList]⟩
  | cons n ms ih =>
    intro L
    simp only [allocList]
    rcases hlk : L.slots.lookup n with _ | s
    · have halloc : (L.allocate n).2 =
          ⟨L.slots ++ [(n, L.next_slot)], L.next_slot + 1⟩ := by
        simp [StorageLayout.allocate, hlk]
      obtain ⟨t, ht⟩ := ih ⟨L.slots ++ [(n, L.next_slot)], L.next_slot + 1⟩
      refine ⟨[(n, L.next_slot)] ++ t, ?_⟩
      rw [halloc, ht]
      simp
    · have halloc : (L.allocate n).2 = L := by
        simp [StorageLayout.allocate, hlk]
      obtain ⟨t, ht⟩ := ih L
      exact ⟨t, by rw [halloc, ht]⟩

theorem firstSeen_congr (s₁ s₂ : List String) (h : ∀ x, x ∈ s₁ ↔ x ∈ s₂) :
    ∀ ns, firstSeen s₁ ns = firstSeen s₂ ns := by
  intro ns
  induction ns generalizing s₁ s₂ with
  | nil => rfl
  | cons n ns ih =>
    simp only [firstSeen]
    by_cases hn : n ∈ s₁
    · rw [if_pos hn, if_pos ((h n).mp hn)]
      exact ih s₁ s₂ h
    · rw [if_neg hn, if_neg (fun hc => hn ((h n).mpr hc))]
      refine congrArg _ (ih _ _ fun x => ?_)
      simp only [List.mem_cons]
      exact or_congr Iff.rfl (h x)

theorem firstSeen_disjoint (seen : List String) :
    ∀ ns, (∀ x ∈ firstSeen seen ns, x ∉ seen) ∧ (firstSeen seen ns).Nodup := by
  intro ns
  induction ns generalizing seen with
  | nil => exact ⟨by simp [firstSeen], List.nodup_nil⟩
  | cons n ns ih =>
    simp only [firstSeen]
    by_cases hn : n ∈ seen
    · rw [if_pos hn]
      exact ih seen
    · rw [if_neg hn]
      obtain ⟨hmem, hnd⟩ := ih (n :: seen)
      constructor
      · intro x hx
        rcases List.mem_cons.mp hx with h | h
        · subst h; exact hn
        · intro hc
          exact hmem x h (List.mem_cons_of_mem _ hc)
      · refine List.nodup_cons.mpr ⟨fun hc => ?_, hnd⟩
        exact hmem n hc (List.mem_cons_self _ _)

theorem allocList_spec :
    ∀ (ns : List String) (L : StorageLayout),
      L.next_slot = L.slots.length →
      allocList L ns =
        ⟨L.slots ++ slotEnum L.slots.length (firstSeen (L.slots.map Prod.fst) ns),
          L.slots.length + (firstSeen (L.slots.map Prod.fst) ns).length⟩ := by
  intro ns
  induction ns with
  | nil =>
    intro L hL
    cases L with
    | mk slots next =>
      simp only [allocList, firstSeen, slotEnum, List.append_nil] at *
      simp [hL]
  | cons n ns ih =>
    intro L hL
    simp only [allocList]
    rcases hlk : L.slots.lookup n with _ | s
    · -- fresh name
      have hmem : n ∉ L.slots.map Prod.fst := by
        rw [← lookup_isSome_iff, hlk]
        simp
      have halloc : (L.allocate n).2 =
          ⟨L.slots ++ [(n, L.next_slot)], L.next_slot + 1⟩ := by
        simp [StorageLayout.allocate, hlk]
      rw [halloc]
      have hys := ih ⟨L.slots ++ [(n, L.next_slot)], L.next_slot + 1⟩ (by simp; omega)
      rw [hys]
      have hkeys : ((L.slots ++ [(n, L.next_slot)]).map Prod.fst) = L.slots.map Prod.fst ++ [n] := by
        simp
      have hcong : firstSeen (L.slots.map Prod.fst ++ [n]) ns =
          firstSeen (n :: L.slots.map Prod.fst) ns := by
        refine firstSeen_congr _ _ (fun x => ?_) ns
        simp [or_comm]
      simp only [hkeys, hcong]
      have hfs : firstSeen (L.slots.map Prod.fst) (n :: ns) =
          n :: firstSeen (n :: L.slots.map Prod.fst) ns := by
        simp [firstSeen, hmem]
      rw [hfs]
      have hlen : (L.slots ++ [(n, L.next_slot)]).length = L.slots.length + 1 := by simp
      rw [hlen]
      have hslot : slotEnum L.slots.length (n :: firstSeen (n :: L.slots.map Prod.fst) ns) =
          (n, L.slots.length) :: slotEnum (L.slots.length + 1) (firstSeen (n :: L.slots.map Prod.fst) ns) := rfl
      rw [hslot]
      simp [hL, List.append_assoc]
      omega
    · -- seen name: layout unchanged
      have hmem : n ∈ L.slots.map Prod.fst := by
        rw [← lookup_isSome_iff, hlk]
        simp
      have halloc : (L.allocate n).2 = L := by
        simp [StorageLayout.allocate, hlk]
      rw [halloc]
      have hfs : firstSeen (L.slots.map Prod.fst) (n :: ns) =
          firstSeen (L.slots.map Prod.fst) ns := by
        simp [firstSeen, hmem]
      rw [hfs]
      exact ih L hL

theorem lookup_slotEnum :
    ∀ (names : List String) (k i : Nat) (name : String),
      names.Nodup → names.get? i = some name →
      (slotEnum k names).lookup name = some (k + i) := by
  intro names
  induction names with
  | nil => intro k i name _ h; simp [List.get?] at h
  | cons m ms ih =>
    intro k i name hnd hget
    cases i with
    | zero =>
      simp only [List.get?] at hget
      obtain rfl : m = name := by injection hget
      simp [slotEnum, List.lookup]
    | succ i =>
      simp only [List.get?] at hget
      have hmemname : name ∈ ms := List.get?_mem hget
      have hne : m ≠ name := by
        intro hc
        subst hc
        exact (List.nodup_cons.mp hnd).1 hmemname
      have hbeq : (name == m) = false := beq_false_of_ne (Ne.symm hne)
      simp only [slotEnum, List.lookup, hbeq]
      have harith : k + 1 + i = k + (i + 1) := by omega
      have := ih (k + 1) i name (List.nodup_cons.mp hnd).2 hget
      rw [this, harith]

theorem allocList_append :
    ∀ (ns ms : List String) (L : StorageLayout),
      allocList L (ns ++ ms) = allocList (allocList L ns) ms := by
  intro ns
  induction ns with
  | nil => intro ms L; rfl
  | cons n ns ih => intro ms L; exact ih ms (L.allocate n).2

/-- **C5.** Storage-slot allocation: starting from the empty layout, the
layout after any sequence of allocations is exactly the first-seen names
enumerated with consecutive slots from 0 — so the n-th distinct first-seen
name receives slot n; allocating an already-seen name returns its original
slot and leaves the layout unchanged; and a name's slot, once assigned,
persists unchanged under any further allocations. -/
theorem storage_slot_allocation (ns : List String) :
    (allocList emptyLayout ns).slots = slotEnum 0 (firstSeen [] ns) ∧
      (allocList emptyLayout ns).next_slot = (firstSeen [] ns).length ∧
      (∀ i name, (firstSeen [] ns).get? i = some name →
        (allocList emptyLayout ns).slots.lookup name = some i) ∧
      (∀ (L : StorageLayout) (name : String) (s : Nat),
        L.slots.lookup name = some s → L.allocate name = (s, L)) ∧
      (∀ ms name k,
        (allocList emptyLayout ns).slots.lookup name = some k →
        (allocList emptyLayout (ns ++ ms)).slots.lookup name = some k) := by
  have hrun := allocList_spec ns emptyLayout rfl
  have hslots : (allocList emptyLayout ns).slots = slotEnum 0 (firstSeen [] ns) := by
    rw [hrun]
    simp [emptyLayout]
  have hnext : (allocList emptyLayout ns).next_slot = (firstSeen [] ns).length := by
    rw [hrun]
    simp [emptyLayout]
  refine ⟨hslots, hnext, ?_, ?_, ?_⟩
  · intro i name hget
    rw [hslots]
    have := lookup_slotEnum (firstSeen [] ns) 0 i name (firstSeen_disjoint [] ns).2 hget
    simpa using this
  · intro L name s hs
    simp [StorageLayout.allocate, hs]
  · intro ms name k hk
    rw [allocList_append]
    obtain ⟨t, ht⟩ := allocList_slots_extend ms (allocList emptyLayout ns)
    rw [ht]
    exact lookup_append_left hk

theorem storage_slot_allocation_witness :
    (allocList emptyLayout ["count", "owner", "count", "total"]).slots =
        [("count", 0), ("owner", 1), ("total", 2)] ∧
      (allocList emptyLayout ["count", "owner", "count", "total"]).slots.lookup "owner" =
        some 1 := by
  have h := storage_slot_allocation ["count", "owner", "count", "total"]
  constructor
  · rw [h.1]
    decide
  · exact h.2.2.1 1 "owner" (by decide)

/-! ## A straight-line EVM fragment semantics

Enough of the EVM to execute the straight-line instruction sequences the
generator emits for mapping-slot resolution and comparisons: the PUSH family,
`MSTORE`, `SHA3`, `SLOAD`, `SSTORE`, `SWAP1`, `LT`, `GT`, `EQ`, `ISZERO`.
Memory is byte-addressed (`Nat → Nat`), storage word-addressed. -/

structure EVM where
  stack : List Nat
  mem : Nat → Nat
  storage : Nat → Nat

/-- Read `n` bytes of memory starting at `off`. -/
def readBytes (m : Nat → Nat) (off : Nat) : Nat → List Nat
  | 0 => []
  | n + 1 => m off :: readBytes m (off + 1) n

/-- Write the byte list `bs` to memory starting at `off`. -/
def writeBytes (m : Nat → Nat) (off : Nat) : List Nat → (Nat → Nat)
  | [] => m
  | b :: bs => writeBytes (fun a => if a = off then b else m a) (off + 1) bs

/-- One step of straight-line execution for the non-push opcodes modelled
here; `none` on stack underflow or an unmodelled opcode. -/
def execOp (K : List Nat → List Nat) (op : Nat) (st : EVM) : Option EVM :=
  match op, st.stack with
  | 0x10, a :: b :: s => some { st with stack := (if a < b then 1 else 0) :: s }
  | 0x11, a :: b :: s => some { st with stack := (if b < a then 1 else 0) :: s }
  | 0x14, a :: b :: s => some { st with stack := (if a = b then 1 else 0) :: s }
  | 0x15, a :: s => some { st with stack := (if a = 0 then 1 else 0) :: s }
  | 0x90, a :: b :: s => some { st with stack := b :: a :: s }
  | 0x52, off :: v :: s =>
      some { st with stack := s,
                     mem := writeBytes st.mem off (natToBytesBE 32 (v % 256 ^ 32)) }
  | 0x20, off :: len :: s =>
      some { st with stack := bytesToNatBE (K (readBytes st.mem off len)) :: s }
  | 0x54, k :: s => some { st with stack := st.storage k :: s }
  | 0x55, k :: v :: s =>
      some { st with stack := s,
                     storage := fun x => if x = k then v % 256 ^ 32 else st.storage x }
  | _, _ => none

/-- Execute a straight-line byte sequence (no jumps), parameterised by the
keccak function `K`; fuel-indexed so the recursion is structural (every
instruction consumes at least one code byte, so fuel `code.length` always
suffices). -/
def runStraightF (K : List Nat → List Nat) : Nat → List Nat → EVM → Option EVM
  | _, [], st => some st
  | 0, _ :: _, _ => none
  | f + 1, op :: rest, st =>
    if 0x60 ≤ op ∧ op ≤ 0x7F then
      if op - 0x5F ≤ rest.length then
        runStraightF K f (rest.drop (op - 0x5F))
          { st with stack := bytesToNatBE (rest.take (op - 0x5F)) :: st.stack }
      else none
    else
      (execOp K op st).bind (runStraightF K f rest)

/-- Execute a straight-line byte sequence to completion. -/
def runStraight (K : List Nat → List Nat) (code : List Nat) (st : EVM) :
    Option EVM :=
  runStraightF K code.length code st

theorem runStraightF_fuel_aux (K : List Nat → List Nat) :
    ∀ n code f st, code.length ≤ n → code.length ≤ f →
      runStraightF K f code st = runStraightF K code.length code st := by
  intro n
  induction n with
  | zero =>
    intro code f st hn _
    have : code = [] := List.eq_nil_of_length_eq_zero (by omega)
    subst this
    cases f <;> rfl
  | succ n ih =>
    intro code f st hn hf
    cases code with
    | nil => cases f <;> rfl
    | cons op rest =>
      simp only [List.length_cons] at hn hf
      obtain ⟨f', rfl⟩ : ∃ f', f = f' + 1 := ⟨f - 1, by omega⟩
      show runStraightF K (f' + 1) (op :: rest) st =
        runStraightF K (rest.length + 1) (op :: rest) st
      by_cases hp : 0x60 ≤ op ∧ op ≤ 0x7F
      · by_cases hl : op - 0x5F ≤ rest.length
        · simp only [runStraightF, if_pos hp, if_pos hl]
          have hd1 : (rest.drop (op - 0x5F)).length ≤ n := by
            simp only [List.length_drop]
            omega
          have hd2 : (rest.drop (op - 0x5F)).length ≤ f' := by
            simp only [List.length_drop]
            omega
          have hd3 : (rest.drop (op - 0x5F)).length ≤ rest.length := by
            simp only [List.length_drop]
            omega
          rw [ih _ f' _ hd1 hd2, ih _ rest.length _ hd1 hd3]
        · simp only [runStraightF, if_pos hp, if_neg hl]
      · simp only [runStraightF, if_neg hp]
        rcases hop : execOp K op st with _ | st'
        · rfl
        · simp only [Option.some_bind]
          exact ih rest f' st' (by omega) (by omega)

theorem runStraightF_fuel (K : List Nat → List Nat) (f : Nat) (code : List Nat)
    (st : EVM) (h : code.length ≤ f) :
    runStraightF K f code st = runStraight K code st :=
  runStraightF_fuel_aux K code.length code f st le_rfl h

theorem runStraight_nil (K : List Nat → List Nat) (st : EVM) :
    runStraight K [] st = some st := rfl

theorem runStraight_cons_op (K : List Nat → List Nat) (op : Nat) (rest : List Nat)
    (st st' : EVM) (hop : ¬(0x60 ≤ op ∧ op ≤ 0x7F)) (hex : execOp K op st = some st') :
    runStraight K (op :: rest) st = runStraight K rest st' := by
  show runStraightF K (op :: rest).length (op :: rest) st = _
  simp only [List.length_cons, runStraightF, if_neg hop, hex, Option.bind_some]
  exact runStraightF_fuel K rest.length rest st' le_rfl

theorem runStraight_push (K : List Nat → List Nat) (w v : Nat) (h1 : 1 ≤ w)
    (h2 : w ≤ 32) (rest : List Nat) (st : EVM) :
    runStraight K ((0x5F + w) :: (natToBytesBE w v ++ rest)) st =
      runStraight K rest { st with stack := v % 256 ^ w :: st.stack } := by
  have hcond : 0x60 ≤ 0x5F + w ∧ 0x5F + w ≤ 0x7F := by omega
  have hlen : (natToBytesBE w v).length = w := natToBytesBE_length w v
  have hn : 0x5F + w - 0x5F = w := by omega
  have htake : (natToBytesBE w v ++ rest).take w = natToBytesBE w v := by
    rw [List.take_append_of_le_length (by omega)]
    exact List.take_of_length_le (by omega)
  have hdrop : (natToBytesBE w v ++ rest).drop w = rest := by
    rw [List.drop_append_of_le_length (by omega)]
    rw [List.drop_eq_nil_of_le (by omega), List.nil_append]
  show runStraightF K _ _ _ = _
  simp only [List.length_cons, runStraightF, if_pos hcond, hn]
  rw [if_pos (by simp [hlen]), htake, hdrop, bytesToNatBE_natToBytesBE]
  apply runStraightF_fuel
  simp [hlen]

theorem runStraight_pushMin (K : List Nat → List Nat) (v : Nat) (h : v < 256 ^ 32)
    (rest : List Nat) (s : List Nat) (m g : Nat → Nat) :
    runStraight K (pushMin v ++ rest) ⟨s, m, g⟩ = runStraight K rest ⟨v :: s, m, g⟩ := by
  have h32 : pushWidth v ≤ 32 := pushWidth_le v 32 (by norm_num) h
  have h1 := one_le_pushWidth v
  have hform : pushMin v = (0x5F + pushWidth v) :: natToBytesBE (pushWidth v) v := by
    unfold pushMin
    rw [Nat.min_eq_left h32, Nat.sub_self, List.drop_zero]
  rw [hform, List.cons_append, runStraight_push K _ v h1 h32 rest _,
    Nat.mod_eq_of_lt (lt_pow_pushWidth v)]

theorem runStraight_op_swap1 (K : List Nat → List Nat) (rest : List Nat)
    (a b : Nat) (s : List Nat) (m g : Nat → Nat) :
    runStraight K (0x90 :: rest) ⟨a :: b :: s, m, g⟩ =
      runStraight K rest ⟨b :: a :: s, m, g⟩ :=
  runStraight_cons_op K 0x90 rest _ _ (by decide) rfl

theorem runStraight_op_lt (K : List Nat → List Nat) (rest : List Nat)
    (a b : Nat) (s : List Nat) (m g : Nat → Nat) :
    runStraight K (0x10 :: rest) ⟨a :: b :: s, m, g⟩ =
      runStraight K rest ⟨(if a < b then 1 else 0) :: s, m, g⟩ :=
  runStraight_cons_op K 0x10 rest _ _ (by decide) rfl

theorem runStraight_op_gt (K : List Nat → List Nat) (rest : List Nat)
    (a b : Nat) (s : List Nat) (m g : Nat → Nat) :
    runStraight K (0x11 :: rest) ⟨a :: b :: s, m, g⟩ =
      runStraight K rest ⟨(if b < a then 1 else 0) :: s, m, g⟩ :=
  runStraight_cons_op K 0x11 rest _ _ (by decide) rfl

theorem runStraight_op_eq (K : List Nat → List Nat) (rest : List Nat)
    (a b : Nat) (s : List Nat) (m g : Nat → Nat) :
    runStraight K (0x14 :: rest) ⟨a :: b :: s, m, g⟩ =
      runStraight K rest ⟨(if a = b then 1 else 0) :: s, m, g⟩ :=
  runStraight_cons_op K 0x14 rest _ _ (by decide) rfl

theorem runStraight_op_iszero (K : List Nat → List Nat) (rest : List Nat)
    (a : Nat) (s : List Nat) (m g : Nat → Nat) :
    runStraight K (0x15 :: rest) ⟨a :: s, m, g⟩ =
      runStraight K rest ⟨(if a = 0 then 1 else 0) :: s, m, g⟩ :=
  runStraight_cons_op K 0x15 rest _ _ (by decide) rfl

theorem runStraight_op_mstore (K : List Nat → List Nat) (rest : List Nat)
    (off v : Nat) (s : List Nat) (m g : Nat → Nat) :
    runStraight K (0x52 :: rest) ⟨off :: v :: s, m, g⟩ =
      runStraight K rest ⟨s, writeBytes m off (natToBytesBE 32 (v % 256 ^ 32)), g⟩ :=
  runStraight_cons_op K 0x52 rest _ _ (by decide) rfl

theorem runStraight_op_sha3 (K : List Nat → List Nat) (rest : List Nat)
    (off len : Nat) (s : List Nat) (m g : Nat → Nat) :
    runStraight K (0x20 :: rest) ⟨off :: len :: s, m, g⟩ =
      runStraight K rest ⟨bytesToNatBE (K (readBytes m off len)) :: s, m, g⟩ :=
  runStraight_cons_op K 0x20 rest _ _ (by decide) rfl

theorem runStraight_op_sload (K : List Nat → List Nat) (rest : List Nat)
    (k : Nat) (s : List Nat) (m g : Nat → Nat) :
    runStraight K (0x54 :: rest) ⟨k :: s, m, g⟩ =
      runStraight K rest ⟨g k :: s, m, g⟩ :=
  runStraight_cons_op K 0x54 rest _ _ (by decide) rfl

/-! ## Memory read/write lemmas -/

theorem readBytes_split (m : Nat → Nat) (n1 : Nat) :
    ∀ off n2, readBytes m off (n1 + n2) = readBytes m off n1 ++ readBytes m (off + n1) n2 := by
  induction n1 with
  | zero => intro off n2; simp [readBytes]
  | succ n1 ih =>
    intro off n2
    have h1 : n1 + 1 + n2 = (n1 + n2) + 1 := by omega
    rw [h1]
    rw [show readBytes m off (n1 + n2 + 1) = m off :: readBytes m (off + 1) (n1 + n2) from rfl]
    rw [ih (off + 1) n2]
    rw [show readBytes m off (n1 + 1) = m off :: readBytes m (off + 1) n1 from rfl]
    rw [List.cons_append]
    have h2 : off + 1 + n1 = off + (n1 + 1) := by omega
    rw [h2]

theorem writeBytes_lt (bs : List Nat) :
    ∀ (m : Nat → Nat) (off a : Nat), a < off → writeBytes m off bs a = m a := by
  induction bs with
  | nil => intro m off a _; rfl
  | cons b bs ih =>
    intro m off a ha
    show writeBytes (fun x => if x = off then b else m x) (off + 1) bs a = m a
    rw [ih _ (off + 1) a (by omega)]
    simp [Nat.ne_of_lt ha]

theorem readBytes_writeBytes_below (bs : List Nat) (m : Nat → Nat) (off : Nat) :
    ∀ off' n, off' + n ≤ off → readBytes (writeBytes m off bs) off' n = readBytes m off' n := by
  intro off' n
  induction n generalizing off' with
  | zero => intro _; rfl
  | succ n ih =>
    intro h
    show writeBytes m off bs off' :: _ = m off' :: _
    rw [writeBytes_lt bs m off off' (by omega), ih (off' + 1) (by omega)]

theorem readBytes_writeBytes (bs : List Nat) :
    ∀ (m : Nat → Nat) (off : Nat),
      readBytes (writeBytes m off bs) off bs.length = bs := by
  induction bs with
  | nil => intro m off; rfl
  | cons b bs ih =>
    intro m off
    show writeBytes (fun x => if x = off then b else m x) (off + 1) bs off :: _ = _
    rw [writeBytes_lt bs _ (off + 1) off (by omega)]
    simp only [if_pos rfl, List.cons.injEq]
    exact ⟨rfl, ih _ (off + 1)⟩

theorem readBytes_two_writes (m : Nat → Nat) (a b : List Nat)
    (ha : a.length = 32) (hb : b.length = 32) :
    readBytes (writeBytes (writeBytes m 0 a) 32 b) 0 64 = a ++ b := by
  rw [show (64 : Nat) = 32 + 32 from rfl, readBytes_split]
  congr 1
  · rw [readBytes_writeBytes_below b _ 32 0 32 (by omega), ← ha,
      readBytes_writeBytes a m 0]
  · rw [show (0 : Nat) + 32 = 32 from rfl]
    have hww := readBytes_writeBytes b (writeBytes m 0 a) 32
    rw [hb] at hww
    exact hww

/-! ## The expression IR and the expression compiler
(`EnhancedBytecodeGenerator._compile_expression` / `_compile_mapping_slot`) -/

/-- The binary arithmetic operators the compiler matches on. -/
inductive BOp where
  | add | sub | mul | div | mod
deriving DecidableEq, Repr

/-- The comparison operators the compiler matches on. -/
inductive CmpOp where
  | eq | lt | gt | le | ge
deriving DecidableEq, Repr

/-- The expression IR the statement compiler dispatches on: integer
constants, a bare name (function parameter), `self.x` (state variable),
`self.x[key]` (mapping access), binary arithmetic, comparisons, and a
catch-all for every other Python expression shape (the source's trailing
`else` branch). -/
inductive Expr where
  | const (n : Nat)
  | name (x : String)
  | stateVar (x : String)
  | mapping (x : String) (key : Expr)
  | binop (op : BOp) (l r : Expr)
  | compare (op : CmpOp) (l r : Expr)
  | unsupported
deriving Repr

/-- Opcode emitted for a binary arithmetic operator. -/
def BOp.byte : BOp → Nat
  | .add => 0x01
  | .sub => 0x03
  | .mul => 0x02
  | .div => 0x04
  | .mod => 0x06

/-- Bytes emitted after the two operands of a comparison: `EQ` for `==`,
`SWAP1; LT` for `<`, `SWAP1; GT` for `>`, and the strict opposite comparison
followed by `ISZERO` for `<=`/`>=`. -/
def CmpOp.bytes : CmpOp → List Nat
  | .eq => [0x14]
  | .lt => [0x90, 0x10]
  | .gt => [0x90, 0x11]
  | .le => [0x90, 0x11, 0x15]
  | .ge => [0x90, 0x10, 0x15]

/-- The slot-resolution code `_compile_mapping_slot` emits after the key
expression: store key at memory 0, store the base slot at memory 32, hash
the 64-byte region (`PUSH 0; MSTORE; PUSH slot; PUSH 32; MSTORE; PUSH 64;
PUSH 0; SHA3`). -/
def mappingSlotTail (base_slot : Nat) : List Nat :=
  pushMin 0 ++ [0x52] ++ pushMin base_slot ++ pushMin 32 ++ [0x52] ++
    pushMin 64 ++ pushMin 0 ++ [0x20]

/-- `_compile_expression`: bytes appended to the active region for an
expression.  `argMap` maps parameter names to argument indices, `vars` maps
state-variable names to storage slots. -/
def compileExpr (argMap vars : List (String × Nat)) : Expr → List Nat
  | .const n => pushMin n
  | .name x =>
      match argMap.lookup x with
      | some i => pushMin (4 + i * 32) ++ [0x35]
      | none => pushMin 0
  | .stateVar x =>
      match vars.lookup x with
      | some slot => pushMin slot ++ [0x54]
      | none => pushMin 0
  | .mapping x key =>
      match vars.lookup x with
      | some p => (compileExpr argMap vars key ++ mappingSlotTail p) ++ [0x54]
      | none => pushMin 0
  | .binop op l r =>
      compileExpr argMap vars l ++ compileExpr argMap vars r ++ [op.byte]
  | .compare op l r =>
      compileExpr argMap vars l ++ compileExpr argMap vars r ++ op.bytes
  | .unsupported => pushMin 0

/-- `_compile_mapping_slot`: key expression code followed by the
slot-resolution tail. -/
def compileMappingSlot (argMap vars : List (String × Nat)) (key : Expr)
    (base_slot : Nat) : List Nat :=
  compileExpr argMap vars key ++ mappingSlotTail base_slot

/-- `calculate_mapping_slot` (compile-time reference): pad key and base
slot to 32 bytes, hash the concatenation, decode big-endian.  `none` models
the `OverflowError` of `to_bytes` for out-of-range inputs. -/
def calculate_mapping_slot (K : List Nat → List Nat) (key base_slot : Nat) :
    Option Nat :=
  (toBytes? 32 key).bind fun key_bytes =>
    (toBytes? 32 base_slot).map fun slot_bytes =>
      bytesToNatBE (K (key_bytes ++ slot_bytes))

/-! ## Statements, function bodies, dispatcher, constructor, pipeline -/

/-- The statement IR the statement compiler dispatches on: `return`,
assignment to a state variable, assignment to a mapping entry, `if/else`,
a bare expression statement (event emissions — ignored), and a catch-all
for every other Python statement shape (which `_compile_statement` silently
skips). -/
inductive Stmt where
  | ret (e : Option Expr)
  | assignState (x : String) (value : Expr)
  | assignMapping (x : String) (key : Expr) (value : Expr)
  | ifStmt (test : Expr) (thenB elseB : List Stmt)
  | exprStmt
  | unsupported
deriving Repr

/-- `generate_abi_encoded_return`: store the stack top at memory 0 and
return the 32 bytes there (`PUSH 0; MSTORE; PUSH 32; PUSH 0; RETURN`). -/
def abiReturn : List Nat :=
  pushMin 0 ++ [0x52] ++ pushMin 32 ++ pushMin 0 ++ [0xF3]

/-- `_backpatch` on one byte region: overwrite `code[offset : offset+size]`
with the big-endian `size`-byte encoding of `target`.  `none` models the
fatal `OverflowError` raised by `target.to_bytes(size, 'big')` when the
target exceeds the width — the target is never truncated. -/
def backpatch? (code : List Nat) (offset target size : Nat) : Option (List Nat) :=
  (toBytes? size target).map fun target_bytes =>
    code.take offset ++ target_bytes ++ code.drop (offset + size)

mutual

/-- `_compile_statement` / `_compile_if_statement`, appending to the
accumulated runtime region `code` (offsets and backpatches are absolute
into that region, as in the source). -/
def compileStmt (argMap vars : List (String × Nat)) (code : List Nat) :
    Stmt → Option (List Nat)
  | .ret (some e) => some (code ++ compileExpr argMap vars e ++ abiReturn)
  | .ret none => some (code ++ pushMin 0 ++ pushMin 0 ++ [0xF3])
  | .assignState x value =>
      match vars.lookup x with
      | some slot =>
          some (code ++ compileExpr argMap vars value ++ pushMin slot ++ [0x55])
      | none => some code
  | .assignMapping x key value =>
      match vars.lookup x with
      | some slot =>
          some (code ++ compileExpr argMap vars value ++
            compileMappingSlot argMap vars key slot ++ [0x55])
      | none => some code
  | .ifStmt test thenB elseB =>
      let code1 := code ++ compileExpr argMap vars test ++ [0x15]
      let elsePH := code1.length + 1
      let code2 := code1 ++ [0x61, 0xDE, 0xAD, 0x57]
      (compileStmts argMap vars code2 thenB).bind fun code3 =>
        let endPH := code3.length + 1
        let code4 := code3 ++ [0x61, 0xBE, 0xEF, 0x56]
        let elseOff := code4.length
        let code5 := code4 ++ [0x5B]
        (compileStmts argMap vars code5 elseB).bind fun code6 =>
          let endOff := code6.length
          let code7 := code6 ++ [0x5B]
          (backpatch? code7 elsePH elseOff 2).bind fun code8 =>
            backpatch? code8 endPH endOff 2
  | .exprStmt => some code
  | .unsupported => some code

/-- Compile a statement list in order, threading the accumulated code. -/
def compileStmts (argMap vars : List (String × Nat)) (code : List Nat) :
    List Stmt → Option (List Nat)
  | [] => some code
  | st :: ss =>
      (compileStmt argMap vars code st).bind fun c =>
        compileStmts argMap vars c ss

end

/-- The per-function slice of the contract model (`ContractState.functions`
values): exposure flags, parameter names/types, and the body IR. -/
structure FuncInfo where
  name : String
  param_types : List String
  is_public : Bool
  is_view : Bool
  has_return : Bool
  args : List String
  body : List Stmt
deriving Repr

def isExposed (f : FuncInfo) : Bool := f.is_public || f.is_view

/-- Whether the last statement of a body is a `return`
(`isinstance(body[-1], ast.Return)`). -/
def endsWithReturn (body : List Stmt) : Bool :=
  match body.getLast? with
  | some (.ret _) => true
  | _ => false

/-- `generate_function_body`: compile the body, then append the implicit
return — a default ABI-encoded `0` for view/returning functions whose body
does not end in `return`, or an empty `RETURN` for the rest. -/
def generate_function_body (vars : List (String × Nat)) (f : FuncInfo)
    (code : List Nat) : Option (List Nat) :=
  let argMap := f.args.enum.map fun p => (p.2, p.1)
  (compileStmts argMap vars code f.body).map fun code =>
    if f.is_view || f.has_return then
      if f.body.isEmpty || !endsWithReturn f.body then
        code ++ pushMin 0 ++ abiReturn
      else code
    else
      code ++ pushMin 0 ++ pushMin 0 ++ [0xF3]

/-- UTF-8 bytes of a string (`str.encode('utf-8')`). -/
def utf8Bytes (s : String) : List Nat := s.toUTF8.toList.map (fun b => b.toNat)

/-- `function_selector`: first 4 bytes of the hash of the signature,
read big-endian. -/
def function_selector (K : List Nat → List Nat) (sig : String) : Nat :=
  bytesToNatBE ((K (utf8Bytes sig)).take 4)

/-- Canonical signature `name(type1,type2,…)`. -/
def signatureOf (f : FuncInfo) : String :=
  f.name ++ "(" ++ String.intercalate "," f.param_types ++ ")"

/-- The selector-comparison loop of `generate_function_dispatcher`:
for each exposed function `DUP1; PUSH4 selector; EQ; PUSH2 0xDEAD; JUMPI`,
recording the placeholder operand offset (`get_offset() + 1`). -/
def dispatcherLoop (K : List Nat → List Nat) :
    List Nat → List (String × Nat) → List FuncInfo →
      Option (List Nat × List (String × Nat))
  | code, phs, [] => some (code, phs)
  | code, phs, f :: fs =>
    if isExposed f then
      (emitPush? (function_selector K (signatureOf f)) (some 4)).bind fun pushSel =>
        let code := code ++ [0x80] ++ pushSel ++ [0x14]
        let ph := code.length + 1
        let code := code ++ [0x61, 0xDE, 0xAD, 0x57]
        dispatcherLoop K code (phs ++ [(f.name, ph)]) fs
    else dispatcherLoop K code phs fs

/-- `generate_function_dispatcher` before its final backpatch: the calldata
guard (`PUSH 4; CALLDATASIZE; LT; PUSH2 0xFFFF; JUMPI` with
`revert_offset = get_offset() + 3` recorded before the push), the selector
load (`PUSH 0; CALLDATALOAD; PUSH 224; SHR`), the comparison loop, and the
terminal revert block.  Returns the emitted code, the placeholder table,
the recorded `revert_offset` and the revert block offset. -/
def dispatcherRaw (K : List Nat → List Nat) (funcs : List FuncInfo) :
    Option (List Nat × List (String × Nat) × Nat × Nat) :=
  let code := pushMin 4 ++ [0x36] ++ [0x10]
  let revertOff := code.length + 3
  let code := code ++ [0x61, 0xFF, 0xFF] ++ [0x57]
  let code := code ++ pushMin 0 ++ [0x35] ++ pushMin 224 ++ [0x1C]
  (dispatcherLoop K code [] funcs).map fun pr =>
    let revertStart := pr.1.length
    (pr.1 ++ [0x5B] ++ pushMin 0 ++ pushMin 0 ++ [0xFD], pr.2, revertOff, revertStart)

/-- `generate_function_dispatcher`: emit, then backpatch the guard jump at
the recorded `revert_offset`. -/
def generate_function_dispatcher (K : List Nat → List Nat)
    (funcs : List FuncInfo) : Option (List Nat × List (String × Nat)) :=
  (dispatcherRaw K funcs).bind fun r =>
    (backpatch? r.1 r.2.2.1 r.2.2.2 2).map fun code => (code, r.2.1)

/-- The function-body loop of `_generate_enhanced_bytecode`: for each
exposed function emit a `JUMPDEST`, the body, and backpatch the
dispatcher's placeholder for that function to the `JUMPDEST` offset. -/
def bodiesLoop (vars : List (String × Nat)) :
    List Nat → List (String × Nat) → List FuncInfo → Option (List Nat)
  | code, _, [] => some code
  | code, phs, f :: fs =>
    if isExposed f then
      let funcStart := code.length
      let code := code ++ [0x5B]
      (generate_function_body vars f code).bind fun code =>
        match phs.lookup f.name with
        | some ph =>
            (backpatch? code ph funcStart 2).bind fun code =>
              bodiesLoop vars code phs fs
        | none => bodiesLoop vars code phs fs
    else bodiesLoop vars code phs fs

/-- The contract model fields the code generator reads: state variables
with their slots, initial values (the integer case — non-integer initial
values are skipped by the source and not modelled), and the functions in
declaration order. -/
structure ContractState where
  «variables» : List (String × Nat)
  initial_values : List (String × Nat)
  functions : List FuncInfo
deriving Repr

/-- The storage-initialisation stores of `generate_constructor`:
`PUSH initial; PUSH slot; SSTORE` per state variable. -/
def constructorStores (vars initVals : List (String × Nat)) : List Nat :=
  vars.foldl
    (fun code p => code ++ pushMin ((initVals.lookup p.1).getD 0) ++ pushMin p.2 ++ [0x55])
    []

/-- `generate_constructor`: the initialisation stores, then
`runtime_offset = len(init_code) + 13` and the copy sequence
`PUSH2 size; PUSH2 offset; DUP2; PUSH 0; CODECOPY; PUSH 0; RETURN`.
`none` models the overflow failure of either 2-byte push. -/
def generate_constructor (state : ContractState) (runtime_size : Nat) :
    Option (List Nat) :=
  let code := constructorStores state.«variables» state.initial_values
  let runtime_offset := code.length + 13
  (emitPush? runtime_size (some 2)).bind fun p1 =>
    (emitPush? runtime_offset (some 2)).map fun p2 =>
      code ++ p1 ++ p2 ++ [0x81] ++ pushMin 0 ++ [0x39] ++ pushMin 0 ++ [0xF3]

/-- `_generate_enhanced_bytecode` up to the two finished regions:
dispatcher, function bodies with dispatcher backpatches (the runtime
region), then the constructor (the init region). -/
def generateRegions (K : List Nat → List Nat) (state : ContractState) :
    Option (List Nat × List Nat) :=
  (generate_function_dispatcher K state.functions).bind fun dr =>
    (bodiesLoop state.«variables» dr.1 dr.2 state.functions).bind fun runtime =>
      (generate_constructor state runtime.length).map fun initCode =>
        (initCode, runtime)

/-- `_generate_enhanced_bytecode`: the final artifact is the init region
concatenated with the runtime region. -/
def generateEnhancedBytecode (K : List Nat → List Nat)
    (state : ContractState) : Option (List Nat) :=
  (generateRegions K state).map fun r => r.1 ++ r.2

/-- The two-region generator state (`init_code`, `runtime_code`,
`current_mode`). -/
inductive Mode where
  | init | runtime
deriving DecidableEq, Repr

structure GenState where
  init_code : List Nat
  runtime_code : List Nat
  current_mode : Mode
deriving Repr

/-- `EnhancedBytecodeGenerator._backpatch`: patch the region selected by
`current_mode`. -/
def GenState.backpatch (g : GenState) (offset target size : Nat) :
    Option GenState :=
  match g.current_mode with
  | .init =>
      (backpatch? g.init_code offset target size).map fun c =>
        { g with init_code := c }
  | .runtime =>
      (backpatch? g.runtime_code offset target size).map fun c =>
        { g with runtime_code := c }

theorem mappingSlotTail_run (K : List Nat → List Nat) (p k : Nat)
    (hp : p < 256 ^ 32) (hk : k < 256 ^ 32) (rest s : List Nat) (m g : Nat → Nat) :
    runStraight K (mappingSlotTail p ++ rest) ⟨k :: s, m, g⟩ =
      runStraight K rest
        ⟨bytesToNatBE (K (natToBytesBE 32 k ++ natToBytesBE 32 p)) :: s,
         writeBytes (writeBytes m 0 (natToBytesBE 32 k)) 32 (natToBytesBE 32 p), g⟩ := by
  unfold mappingSlotTail
  simp only [List.append_assoc, List.singleton_append, List.cons_append,
    List.nil_append]
  rw [runStraight_pushMin K 0 (by norm_num), runStraight_op_mstore,
    Nat.mod_eq_of_lt hk, runStraight_pushMin K p hp,
    runStraight_pushMin K 32 (by norm_num), runStraight_op_mstore,
    Nat.mod_eq_of_lt hp, runStraight_pushMin K 64 (by norm_num),
    runStraight_pushMin K 0 (by norm_num), runStraight_op_sha3,
    readBytes_two_writes m _ _ (natToBytesBE_length _ _) (natToBytesBE_length _ _)]

/-- **C6.** Mapping-slot resolution: `_compile_mapping_slot` emits the key
code followed by the fixed tail (store key at memory 0, store base slot at
memory 32, `SHA3` over the 64-byte region); the mapping read compiles to
that code followed by `SLOAD`; executing the tail with key `k` on the stack
leaves `keccak(k_32 ++ p_32)` decoded big-endian on the stack (the hashed
region is exactly the 32-byte key followed by the 32-byte base slot), which
is also what the compile-time reference `calculate_mapping_slot` returns,
and appending `SLOAD` loads storage at exactly that slot. -/
theorem mapping_slot_resolution (K : List Nat → List Nat) (p k : Nat)
    (hp : p < 256 ^ 32) (hk : k < 256 ^ 32) (s : List Nat) (m g : Nat → Nat) :
    (∀ argMap vars key,
        compileMappingSlot argMap vars key p =
          compileExpr argMap vars key ++ mappingSlotTail p) ∧
      (∀ argMap vars x key, vars.lookup x = some p →
        compileExpr argMap vars (.mapping x key) =
          compileMappingSlot argMap vars key p ++ [0x54]) ∧
      calculate_mapping_slot K k p =
        some (bytesToNatBE (K (natToBytesBE 32 k ++ natToBytesBE 32 p))) ∧
      readBytes (writeBytes (writeBytes m 0 (natToBytesBE 32 k)) 32
          (natToBytesBE 32 p)) 0 64 =
        natToBytesBE 32 k ++ natToBytesBE 32 p ∧
      runStraight K (mappingSlotTail p) ⟨k :: s, m, g⟩ =
        some ⟨bytesToNatBE (K (natToBytesBE 32 k ++ natToBytesBE 32 p)) :: s,
              writeBytes (writeBytes m 0 (natToBytesBE 32 k)) 32 (natToBytesBE 32 p),
              g⟩ ∧
      runStraight K (mappingSlotTail p ++ [0x54]) ⟨k :: s, m, g⟩ =
        some ⟨g (bytesToNatBE (K (natToBytesBE 32 k ++ natToBytesBE 32 p))) :: s,
              writeBytes (writeBytes m 0 (natToBytesBE 32 k)) 32 (natToBytesBE 32 p),
              g⟩ := by
  refine ⟨fun _ _ _ => rfl, ?_, ?_, ?_, ?_, ?_⟩
  · intro argMap vars x key hx
    simp [compileExpr, hx, compileMappingSlot]
  · unfold calculate_mapping_slot toBytes?
    rw [if_pos hk, if_pos hp]
    rfl
  · exact readBytes_two_writes m _ _ (natToBytesBE_length _ _) (natToBytesBE_length _ _)
  · have h := mappingSlotTail_run K p k hp hk [] s m g
    rw [List.append_nil] at h
    rw [h, runStraight_nil]
  · rw [mappingSlotTail_run K p k hp hk [0x54] s m g, runStraight_op_sload,
      runStraight_nil]

theorem mapping_slot_resolution_witness :
    calculate_mapping_slot (fun _ => List.replicate 32 0) 7 2 = some 0 ∧
      runStraight (fun _ => List.replicate 32 0) (mappingSlotTail 2)
          ⟨[7], fun _ => 0, fun _ => 0⟩ =
        some ⟨[0],
              writeBytes (writeBytes (fun _ => 0) 0 (natToBytesBE 32 7)) 32
                (natToBytesBE 32 2),
              fun _ => 0⟩ := by
  have h := mapping_slot_resolution (fun _ => List.replicate 32 0) 2 7
    (by norm_num) (by norm_num) [] (fun _ => 0) (fun _ => 0)
  exact ⟨h.2.2.1, h.2.2.2.2.1⟩

/-- **C8.** `<=` and `>=` compile to the operands followed by the strict
opposite comparison and `ISZERO` (`SWAP1; GT; ISZERO` for `<=`,
`SWAP1; LT; ISZERO` for `>=`), and executing that tail on operand values
`a`, `b` (pushed in that order, so `b` is on top) leaves exactly
`1` when `a ≤ b` (resp. `a ≥ b`) and `0` otherwise. -/
theorem compare_le_ge_synthesis (argMap vars : List (String × Nat)) (a b : Expr)
    (K : List Nat → List Nat) (av bv : Nat) (s : List Nat) (m g : Nat → Nat) :
    compileExpr argMap vars (.compare .le a b) =
        compileExpr argMap vars a ++ compileExpr argMap vars b ++ [0x90, 0x11, 0x15] ∧
      compileExpr argMap vars (.compare .ge a b) =
        compileExpr argMap vars a ++ compileExpr argMap vars b ++ [0x90, 0x10, 0x15] ∧
      runStraight K [0x90, 0x11, 0x15] ⟨bv :: av :: s, m, g⟩ =
        some ⟨(if av ≤ bv then 1 else 0) :: s, m, g⟩ ∧
      runStraight K [0x90, 0x10, 0x15] ⟨bv :: av :: s, m, g⟩ =
        some ⟨(if bv ≤ av then 1 else 0) :: s, m, g⟩ := by
  refine ⟨rfl, rfl, ?_, ?_⟩
  · rw [show ([0x90, 0x11, 0x15] : List Nat) = 0x90 :: [0x11, 0x15] from rfl,
      runStraight_op_swap1,
      show ([0x11, 0x15] : List Nat) = 0x11 :: [0x15] from rfl,
      runStraight_op_gt,
      show ([0x15] : List Nat) = 0x15 :: [] from rfl,
      runStraight_op_iszero, runStraight_nil]
    have hval : (if (if bv < av then (1 : Nat) else 0) = 0 then (1 : Nat) else 0) =
        if av ≤ bv then 1 else 0 := by
      by_cases hc : bv < av
      · have h1 : ¬(av ≤ bv) := by omega
        simp [hc, h1]
      · have h1 : av ≤ bv := by omega
        simp [hc, h1]
    rw [hval]
  · rw [show ([0x90, 0x10, 0x15] : List Nat) = 0x90 :: [0x10, 0x15] from rfl,
      runStraight_op_swap1,
      show ([0x10, 0x15] : List Nat) = 0x10 :: [0x15] from rfl,
      runStraight_op_lt,
      show ([0x15] : List Nat) = 0x15 :: [] from rfl,
      runStraight_op_iszero, runStraight_nil]
    have hval : (if (if av < bv then (1 : Nat) else 0) = 0 then (1 : Nat) else 0) =
        if bv ≤ av then 1 else 0 := by
      by_cases hc : av < bv
      · have h1 : ¬(bv ≤ av) := by omega
        simp [hc, h1]
      · have h1 : bv ≤ av := by omega
        simp [hc, h1]
    rw [hval]

/-! ## Helper lemmas for the pipeline theorems -/

theorem pushMin_zero : pushMin 0 = [0x60, 0x00] := rfl

theorem emitPush?_two (v : Nat) :
    emitPush? v (some 2) =
      if v < 256 ^ 2 then some (0x61 :: natToBytesBE 2 v) else none := by
  have hdef : emitPush? v (some 2) =
      (toBytes? 2 v).map fun bs =>
        (0x5F + min 2 32) :: bs.drop (2 - min 2 32) := rfl
  rw [hdef]
  unfold toBytes?
  by_cases h : v < 256 ^ 2
  · rw [if_pos h, if_pos h, Option.map_some']
    rfl
  · rw [if_neg h, if_neg h]
    rfl

theorem dispatcherLoop_extend (K : List Nat → List Nat) :
    ∀ (funcs : List FuncInfo) (code : List Nat) (phs : List (String × Nat)) pr,
      dispatcherLoop K code phs funcs = some pr → ∃ t, pr.1 = code ++ t := by
  intro funcs
  induction funcs with
  | nil =>
    intro code phs pr h
    refine ⟨[], ?_⟩
    have hh : (code, phs) = pr := by
      simpa [dispatcherLoop] using h
    rw [← hh]
    simp
  | cons f fs ih =>
    intro code phs pr h
    by_cases hexp : isExposed f
    · rw [dispatcherLoop, if_pos hexp, Option.bind_eq_some] at h
      obtain ⟨pushSel, _, h⟩ := h
      obtain ⟨t, ht⟩ := ih _ _ _ h
      exact ⟨[0x80] ++ pushSel ++ [0x14] ++ [0x61, 0xDE, 0xAD, 0x57] ++ t,
        by rw [ht]; simp [List.append_assoc]⟩
    · rw [dispatcherLoop, if_neg hexp] at h
      exact ih _ _ _ h

/-- Shared concrete inputs used by the concrete-evaluation theorems: a
trivial hash function, a contract with one state variable and no exposed
functions, one with a single public `increment` function, and one whose
function body contains an expression outside the supported grammar. -/
def K0 : List Nat → List Nat := fun _ => List.replicate 32 0

def cEmpty : ContractState := ⟨[("count", 0)], [("count", 0)], []⟩

def cIncrement : ContractState :=
  ⟨[("count", 0)], [("count", 0)],
    [⟨"increment", [], true, false, false, [],
      [.assignState "count" (.binop .add (.stateVar "count") (.const 1))]⟩]⟩

def cUnsupported : ContractState :=
  ⟨[("count", 0)], [("count", 0)],
    [⟨"f", [], true, false, true, [], [.ret (some .unsupported)]⟩]⟩

/-- **C1.** Constructor/assembler: whenever the generator succeeds, the
artifact is exactly init ++ runtime; the init region ends in the copy
sequence `PUSH2 size; PUSH2 offset; DUP2; PUSH 0; CODECOPY; PUSH 0; RETURN`
whose first operand is the runtime length and whose second operand (the
CODECOPY source offset) equals the length of the finished init region, so
the artifact bytes at `[offset, offset + size)` are byte-identical to the
runtime region. -/
theorem constructor_assembler (K : List Nat → List Nat) (state : ContractState)
    (init runtime : List Nat)
    (h : generateRegions K state = some (init, runtime)) :
    generateEnhancedBytecode K state = some (init ++ runtime) ∧
      ∃ stores : List Nat,
        init = stores ++ (0x61 :: natToBytesBE 2 runtime.length) ++
            (0x61 :: natToBytesBE 2 init.length) ++ [0x81] ++ pushMin 0 ++
            [0x39] ++ pushMin 0 ++ [0xF3] ∧
          pushMin 0 = [0x60, 0x00] ∧
          init.length = stores.length + 13 ∧
          runtime.length < 2 ^ 16 ∧ init.length < 2 ^ 16 ∧
          bytesToNatBE (natToBytesBE 2 init.length) = init.length ∧
          bytesToNatBE (natToBytesBE 2 runtime.length) = runtime.length ∧
          ((init ++ runtime).drop init.length).take runtime.length = runtime := by
  have hpow : (256 : Nat) ^ 2 = 2 ^ 16 := by norm_num
  constructor
  · unfold generateEnhancedBytecode
    rw [h]
    rfl
  · unfold generateRegions at h
    rw [Option.bind_eq_some] at h
    obtain ⟨dr, _, h⟩ := h
    rw [Option.bind_eq_some] at h
    obtain ⟨rt, _, h⟩ := h
    rw [Option.map_eq_some'] at h
    obtain ⟨ic, hic, hpair⟩ := h
    obtain ⟨h1, h2⟩ := Prod.mk.injEq .. |>.mp hpair.symm
    subst h1
    subst h2
    unfold generate_constructor at hic
    rw [emitPush?_two] at hic
    by_cases hb1 : runtime.length < 256 ^ 2
    · rw [if_pos hb1, Option.some_bind, emitPush?_two] at hic
      by_cases hb2 :
          (constructorStores state.«variables» state.initial_values).length + 13 <
            256 ^ 2
      · rw [if_pos hb2, Option.map_some'] at hic
        set stores := constructorStores state.«variables» state.initial_values
          with hsdef
        have hinit : init =
            stores ++ (0x61 :: natToBytesBE 2 runtime.length) ++
              (0x61 :: natToBytesBE 2 (stores.length + 13)) ++ [0x81] ++
              pushMin 0 ++ [0x39] ++ pushMin 0 ++ [0xF3] :=
          (Option.some.injEq _ _ |>.mp hic).symm
        have hlen : init.length = stores.length + 13 := by
          rw [hinit, pushMin_zero]
          simp [natToBytesBE_length]
        refine ⟨stores, ?_, rfl, hlen, by omega, by omega, ?_, ?_, ?_⟩
        · rw [hlen, hinit]
        · rw [bytesToNatBE_natToBytesBE]
          exact Nat.mod_eq_of_lt (by omega)
        · rw [bytesToNatBE_natToBytesBE]
          exact Nat.mod_eq_of_lt (by omega)
        · rw [List.drop_left, List.take_length]
      · rw [if_neg hb2] at hic
        simp at hic
    · rw [if_neg hb1] at hic
      simp at hic

theorem constructor_assembler_witness :
    generateEnhancedBytecode K0 cEmpty =
      some ([0x60, 0x00, 0x60, 0x00, 0x55, 0x61, 0x00, 0x14, 0x61, 0x00, 0x12,
          0x81, 0x60, 0x00, 0x39, 0x60, 0x00, 0xF3] ++
        [0x60, 0x04, 0x36, 0x10, 0x61, 0xFF, 0xFF, 0x00, 0x0E, 0x00, 0x35,
          0x60, 0xE0, 0x1C, 0x5B, 0x60, 0x00, 0x60, 0x00, 0xFD]) :=
  (constructor_assembler K0 cEmpty _ _ (by rfl)).1

/-- **C2 (the code violates the claim).** The dispatcher registers the
calldata-guard jump placeholder at `get_offset() + 3` — the position of the
`JUMPI` opcode — instead of `get_offset() + 1`, the position of the `PUSH2`
operand it reserved (and the position convention it uses everywhere else).
Evaluated on a one-function contract: before the backpatch the byte at
offset 7 of the dispatcher region is the `JUMPI` (0x57); in the returned
artifact the `0xFFFF` sentinel operand survives unpatched (artifact bytes
23–24, i.e. runtime offsets 5–6) and the `JUMPI` byte has been overwritten
with the high byte of the revert target (0x00). -/
theorem dispatcher_guard_placeholder_unpatched :
    (dispatcherRaw K0 cIncrement.functions).map
        (fun r => (r.1.get? 7, r.2.2.1, r.2.2.2)) = some (some 0x57, 7, 25) ∧
      (generateEnhancedBytecode K0 cIncrement).map
        (fun art => (art.get? 23, art.get? 24, art.get? 25)) =
        some (some 0xFF, some 0xFF, some 0x00) := ⟨rfl, rfl⟩

/-- **C3 counterexample.** The first instructions the dispatcher emits are
the calldata-length guard `PUSH1 0x04; CALLDATASIZE; LT`, not the selector
load `PUSH1 0x00; CALLDATALOAD` the claim asserts. -/
theorem dispatcher_no_guard_refuted :
    (dispatcherRaw K0 cIncrement.functions).map (fun r => r.1.take 4) =
        some [0x60, 0x04, 0x36, 0x10] ∧
      ¬ (dispatcherRaw K0 cIncrement.functions).map (fun r => r.1.take 4) =
          some [0x60, 0x00, 0x35, 0x60] := by
  exact ⟨rfl, by decide⟩

theorem take14_guard_head (u : List Nat) :
    List.take 14
        ([0x60, 0x04, 0x36, 0x10, 0x61, 0xFF, 0xFF, 0x57, 0x60, 0x00, 0x35,
          0x60, 0xE0, 0x1C] ++ u) =
      [0x60, 0x04, 0x36, 0x10, 0x61, 0xFF, 0xFF, 0x57, 0x60, 0x00, 0x35,
        0x60, 0xE0, 0x1C] := by
  rw [List.take_append_of_le_length (by decide)]
  decide

/-- **C3 amended.** The dispatcher emits an explicit calldata-length guard
(`PUSH1 4; CALLDATASIZE; LT; PUSH2 placeholder; JUMPI`) before the selector
load (`PUSH1 0; CALLDATALOAD; PUSH1 224; SHR`) and the comparison chain:
for every contract, the first 14 emitted dispatcher bytes are exactly that
sequence. -/
theorem dispatcher_guard_before_selector_load (K : List Nat → List Nat)
    (funcs : List FuncInfo) (r : List Nat × List (String × Nat) × Nat × Nat)
    (h : dispatcherRaw K funcs = some r) :
    r.1.take 14 =
      [0x60, 0x04, 0x36, 0x10, 0x61, 0xFF, 0xFF, 0x57, 0x60, 0x00, 0x35,
        0x60, 0xE0, 0x1C] := by
  unfold dispatcherRaw at h
  rw [Option.map_eq_some'] at h
  obtain ⟨pr, hpr, hval⟩ := h
  obtain ⟨t, ht⟩ := dispatcherLoop_extend K funcs _ _ _ hpr
  have hr1 : r.1 = pr.1 ++ [0x5B] ++ pushMin 0 ++ pushMin 0 ++ [0xFD] := by
    rw [← hval]
  have hp4 : pushMin 4 = [0x60, 0x04] := rfl
  have hp0 : pushMin 0 = [0x60, 0x00] := rfl
  have hp224 : pushMin 224 = [0x60, 0xE0] := rfl
  rw [hr1, ht]
  simp only [hp4, hp0, hp224, List.cons_append, List.nil_append, List.append_assoc]
  exact take14_guard_head _

theorem dispatcher_guard_before_selector_load_witness :
    ∃ r, dispatcherRaw K0 cIncrement.functions = some r ∧
      r.1.take 14 =
        [0x60, 0x04, 0x36, 0x10, 0x61, 0xFF, 0xFF, 0x57, 0x60, 0x00, 0x35,
          0x60, 0xE0, 0x1C] := by
  rcases hr : dispatcherRaw K0 cIncrement.functions with _ | r
  · exact absurd hr (by decide)
  · exact ⟨r, rfl, dispatcher_guard_before_selector_load K0 cIncrement.functions r hr⟩

/-- **C7 counterexample.** A contract whose function body contains an
expression outside the supported grammar still compiles to an artifact (no
error is raised), and the unsupported expression is compiled to the default
code `PUSH1 0x00`. -/
theorem unsupported_construct_produces_artifact :
    (generateEnhancedBytecode K0 cUnsupported).isSome = true ∧
      compileExpr [] [] .unsupported = [0x60, 0x00] := ⟨rfl, rfl⟩

/-- **C7 amended.** Constructs outside the supported grammar do not abort
compilation: an unsupported expression compiles to `PUSH 0` (the compiler's
default), and an unsupported statement — like a bare expression statement —
emits no code and compilation continues. -/
theorem unsupported_construct_defaults (argMap vars : List (String × Nat))
    (code : List Nat) :
    compileExpr argMap vars .unsupported = pushMin 0 ∧
      pushMin 0 = [0x60, 0x00] ∧
      compileStmt argMap vars code .unsupported = some code ∧
      compileStmt argMap vars code .exprStmt = some code :=
  ⟨rfl, rfl, rfl, rfl⟩

/-- **C9.** `_backpatch` with a 2-byte width fails (the fatal
`OverflowError`, the spec's `LinkError`) exactly when the target exceeds
the 16-bit range — it never truncates; on an in-range target it overwrites
exactly the two placeholder bytes with the big-endian 16-bit encoding of
the target (which decodes back to the target), preserving the region's
length and every other byte; and at the generator level the patch is
applied to the region selected by the current mode, leaving the other
region untouched. -/
theorem backpatch_linkerror_behaviour (code : List Nat) (offset target : Nat)
    (hoff : offset + 2 ≤ code.length) :
    (2 ^ 16 ≤ target → backpatch? code offset target 2 = none) ∧
      (target < 2 ^ 16 →
        backpatch? code offset target 2 =
          some (code.take offset ++ natToBytesBE 2 target ++
            code.drop (offset + 2)) ∧
        bytesToNatBE (natToBytesBE 2 target) = target ∧
        (code.take offset ++ natToBytesBE 2 target ++
          code.drop (offset + 2)).length = code.length) ∧
      (∀ (g : GenState) (g' : GenState),
        g.backpatch offset target 2 = some g' →
          (g.current_mode = .runtime →
            g'.init_code = g.init_code ∧
            backpatch? g.runtime_code offset target 2 = some g'.runtime_code) ∧
          (g.current_mode = .init →
            g'.runtime_code = g.runtime_code ∧
            backpatch? g.init_code offset target 2 = some g'.init_code)) := by
  have hpow : (256 : Nat) ^ 2 = 2 ^ 16 := by norm_num
  refine ⟨?_, ?_, ?_⟩
  · intro h
    unfold backpatch? toBytes?
    rw [if_neg (by omega)]
    rfl
  · intro h
    refine ⟨?_, ?_, ?_⟩
    · unfold backpatch? toBytes?
      rw [if_pos (by omega)]
      rfl
    · rw [bytesToNatBE_natToBytesBE]
      exact Nat.mod_eq_of_lt (by omega)
    · simp [natToBytesBE_length, List.length_take, List.length_drop]
      omega
  · intro g g' hbp
    constructor
    · intro hm
      unfold GenState.backpatch at hbp
      rw [hm] at hbp
      rw [Option.map_eq_some'] at hbp
      obtain ⟨c, hc, hg'⟩ := hbp
      rw [← hg']
      exact ⟨rfl, by rw [hc]⟩
    · intro hm
      unfold GenState.backpatch at hbp
      rw [hm] at hbp
      rw [Option.map_eq_some'] at hbp
      obtain ⟨c, hc, hg'⟩ := hbp
      rw [← hg']
      exact ⟨rfl, by rw [hc]⟩

theorem backpatch_linkerror_behaviour_witness :
    backpatch? [1, 2, 3, 4, 5, 6] 2 0xABCD 2 = some [1, 2, 0xAB, 0xCD, 5, 6] ∧
      backpatch? [1, 2, 3, 4, 5, 6] 2 0x10000 2 = none := by
  have h1 := backpatch_linkerror_behaviour [1, 2, 3, 4, 5, 6] 2 0xABCD (by norm_num)
  have h2 := backpatch_linkerror_behaviour [1, 2, 3, 4, 5, 6] 2 0x10000 (by norm_num)
  refine ⟨?_, h2.1 (by norm_num)⟩
  rw [(h1.2.1 (by norm_num)).1]
  rfl
